import Mathlib

/-!
Verification development for the `petar/blog` content-aggregation pipeline
(`post/post.go`).  The Go source is embedded shallowly: pure helpers become
Lean functions, the external collaborators (filesystem reads, JSON
unmarshalling, `time.Parse`) become explicit oracles passed as parameters,
`sort.Sort` is modelled by its documented contract (a permutation ordered by
the supplied `Less`, with no stability guarantee), and the semaphore-based
bounded refresher of `gentoc` becomes a small-step transition system.
-/

namespace Blog

/-- Instants of Go `time.Time`, modelled as integer seconds on a time line.
The zero value (`sec = 0`) plays the role of Go's zero `time.Time`. -/
structure GoTime where
  sec : Int
deriving DecidableEq

/-- Go `time.Time.IsZero`. -/
def GoTime.isZero (t : GoTime) : Bool := t.sec == 0

/-- Go `time.Time.After` (strict comparison of instants). -/
def GoTime.after (t u : GoTime) : Bool := decide (u.sec < t.sec)

/-- Go `time.Time.Equal` (equality of instants). -/
def GoTime.equal (t u : GoTime) : Bool := t.sec == u.sec

/-- `post.Config` (post.go:32). -/
structure Config where
  Name : String
  Email : String
  Account : String
  PlusID : String
  PlusKey : String
  PublicURL : String
  FeedID : String
  FeedTitle : String
deriving DecidableEq

/-- `post.PostData` (post.go:86): the metadata record of one content item.
`NotInTOC` is the flag the spec calls `excludeFromIndex`. -/
structure PostData where
  FileModTime : GoTime
  FileSize : Int
  Title : String
  Date : GoTime
  Name : String
  OldURL : String
  Summary : String
  Favorite : Bool
  NotInTOC : Bool
  Aux : String
  Author : String
  Reader : List String
  PlusAuthor : String
  PlusPage : String
  PlusAPIKey : String
  PlusURL : String
  HostURL : String
  Comments : Bool
  article : String
deriving DecidableEq

/-- `PostData.canRead` (post.go:112): linear scan of the `Reader` list. -/
def PostData.canRead (d : PostData) (user : String) : Bool :=
  d.Reader.any (fun r => r == user)

/-- `PostData.IsDraft` (post.go:121); the call to `time.Now()` is passed in
explicitly as `now`. -/
def PostData.IsDraft (d : PostData) (now : GoTime) : Bool :=
  d.Date.isZero || d.Date.after now

/-- `proto.FileInfo` as consumed by post.go: name, directory flag and the
provenance data used for the staleness check. -/
structure FileInfo where
  Name : String
  IsDir : Bool
  ModTime : GoTime
  Size : Int
deriving DecidableEq

/-- The substitution pairs of `replacer` (post.go:125), in argument order. -/
def replacerPairs : List (String × String) :=
  [("⁰", "<sup>0</sup>"), ("¹", "<sup>1</sup>"), ("²", "<sup>2</sup>"),
   ("³", "<sup>3</sup>"), ("⁴", "<sup>4</sup>"), ("⁵", "<sup>5</sup>"),
   ("⁶", "<sup>6</sup>"), ("⁷", "<sup>7</sup>"), ("⁸", "<sup>8</sup>"),
   ("⁹", "<sup>9</sup>"), ("ⁿ", "<sup>n</sup>"), ("₀", "<sub>0</sub>"),
   ("₁", "<sub>1</sub>"), ("₂", "<sub>2</sub>"), ("₃", "<sub>3</sub>"),
   ("₄", "<sub>4</sub>"), ("₅", "<sub>5</sub>"), ("₆", "<sub>6</sub>"),
   ("₇", "<sub>7</sub>"), ("₈", "<sub>8</sub>"), ("₉", "<sub>9</sub>"),
   ("``", "&ldquo;"), ("\x27\x27", "&rdquo;")]

/-- One left-to-right pass of `strings.Replacer.Replace`: at each position the
first pattern (in argument order) that matches is replaced and scanning
resumes after it. -/
def replaceChars (cs : List Char) : List Char :=
  match cs with
  | [] => []
  | c :: rest =>
    match replacerPairs.find? (fun p => List.isPrefixOf p.1.toList (c :: rest)) with
    | some p => p.2.toList ++ replaceChars (rest.drop (p.1.length - 1))
    | none => c :: replaceChars rest
termination_by cs.length
decreasing_by
  · simp only [List.length_drop, List.length_cons]
    omega
  · simp only [List.length_cons]
    omega

/-- `replacer.Replace` (post.go:125) applied to a body string. -/
def applyReplacer (s : String) : String := String.mk (replaceChars s.toList)

/-- Index of the first occurrence of `pat` in `s`, as in Go `bytes.Index`
(which returns `-1`, modelled as `none`, when absent). -/
def listIndexOf (pat : List Char) (s : List Char) : Option Nat :=
  match s with
  | [] => if List.isPrefixOf pat [] then some 0 else none
  | c :: rest =>
    if List.isPrefixOf pat (c :: rest) then some 0
    else Option.map (fun n => n + 1) (listIndexOf pat rest)

/-- `bytes.Index` over the character-sequence model of byte strings. -/
def bytesIndex (s pat : String) : Option Nat := listIndexOf pat.toList s.toList

/-- `bytes.HasPrefix` over the character-sequence model of byte strings. -/
def goHasPrefix (s pre : String) : Bool := List.isPrefixOf pre.toList s.toList

/-- `strings.Index(s, pat) >= 0`. -/
def stringContains (s pat : String) : Bool := (listIndexOf pat.toList s.toList).isSome

/-- `hostURL` (post.go:485), with the request host passed explicitly. -/
def hostURL (host : String) (cfg : Config) : String :=
  if stringContains host "localhost" then "http://localhost:8000" else cfg.PublicURL

/-- The record `loadPost` starts from (post.go:297): name and the
configuration-derived fields are set, everything else is Go's zero value. -/
def defaultPost (cfg : Config) (hostU : String) (name : String) : PostData :=
  { FileModTime := ⟨0⟩, FileSize := 0, Title := "¿Title?", Date := ⟨0⟩,
    Name := name, OldURL := "", Summary := "", Favorite := false,
    NotInTOC := false, Aux := "", Author := "", Reader := [],
    PlusAuthor := cfg.PlusID, PlusPage := "", PlusAPIKey := cfg.PlusKey,
    PlusURL := "", HostURL := hostU, Comments := false, article := "" }

/-- Result of `loadPost` (post.go:296).  A failed `c.Read` is returned as an
error value (`readError`); a metadata block without a closing line or one
that `json.Unmarshal` rejects makes the Go code panic (`panicked`). -/
inductive LoadResult where
  | ok (meta : PostData) (article : String)
  | readError
  | panicked (msg : String)
deriving DecidableEq

/-- `loadPost` (post.go:296).  `fsRead` is the `appfs` read collaborator
returning content, modification time and size; `unm` is `json.Unmarshal`
merging the header into an existing record (`none` = unmarshal error). -/
def loadPost (fsRead : String → Option (String × GoTime × Int))
    (unm : String → PostData → Option PostData)
    (cfg : Config) (hostU : String) (name : String) : LoadResult :=
  let meta := defaultPost cfg hostU name
  match fsRead name with
  | none => .readError
  | some (art, modTime, size) =>
    if goHasPrefix art "\x7b\n" then
      match bytesIndex art "\n\x7d\n" with
      | none => .panicked "cannot find end of json metadata"
      | some i =>
        let hdr := String.mk (art.toList.take (i + 3))
        let rest := String.mk (art.toList.drop (i + 3))
        match unm hdr meta with
        | none => .panicked ("loading " ++ name)
        | some m2 =>
          .ok { m2 with FileModTime := modTime, FileSize := size } (applyReplacer rest)
    else
      .ok { meta with FileModTime := modTime, FileSize := size } (applyReplacer art)

/-- Go's `time.RFC3339` layout constant. -/
def rfc3339Format : String := "2006-01-02T15:04:05Z07:00"

/-- `timeFormats` (post.go:68): the layouts tried while parsing `Date`. -/
def timeFormats : List String :=
  [rfc3339Format, "Monday, January 2, 2006", "January 2, 2006 15:00 -0700"]

/-- The loop body of `blogTime.UnmarshalJSON` (post.go:74): try each layout,
wrapped in double quotes as in the source, until one parses.  `timeParse` is
the `time.Parse` collaborator (`none` = parse error). -/
def tryFormats (timeParse : String → String → Option GoTime)
    (str : String) : List String → Option GoTime
  | [] => none
  | f :: fs =>
    match timeParse ("\"" ++ f ++ "\"") str with
    | some tt => some tt
    | none => tryFormats timeParse str fs

/-- `blogTime.UnmarshalJSON` (post.go:74). -/
def blogTimeUnmarshalJSON (timeParse : String → String → Option GoTime)
    (data : String) : Except String GoTime :=
  match tryFormats timeParse data timeFormats with
  | some tt => .ok tt
  | none => .error ("did not recognize time: " ++ data)

/-- Lookup in the deserialized `blogcache` map (`postCache[d.Name]`,
post.go:426), modelled as an association list. -/
def lookupCache (cache : List (String × PostData)) (name : String) : Option PostData :=
  Option.map (fun p => p.2) (cache.find? (fun p => p.1 == name))

/-- The per-item staleness check of `gentoc` (post.go:426-428): a cached
record is reused iff it exists and both modification time and size match the
current listing. -/
def cacheHit (cache : List (String × PostData)) (d : FileInfo) : Bool :=
  match lookupCache cache d.Name with
  | some meta => meta.FileModTime.equal d.ModTime && meta.FileSize == d.Size
  | none => false

/-- How `gentoc` resolves one directory entry (post.go:425-444). -/
inductive ItemOutcome where
  | hit (meta : PostData)
  | parsed (meta : PostData)
  | dropped (name : String)
  | fatal (msg : String)
deriving DecidableEq

/-- The dispatched-parse path of `gentoc` (post.go:434-444): a read error is
logged and the item dropped; a panic inside `loadPost` propagates out of the
worker goroutine and aborts the whole process. -/
def gentocLoad (fsRead : String → Option (String × GoTime × Int))
    (unm : String → PostData → Option PostData)
    (cfg : Config) (hostU : String) (name : String) : ItemOutcome :=
  match loadPost fsRead unm cfg hostU name with
  | .ok meta _ => .parsed meta
  | .readError => .dropped name
  | .panicked msg => .fatal msg

/-- Per-item resolution of `gentoc` (post.go:425-444): cache hit, or parse. -/
def gentocItem (cache : List (String × PostData))
    (fsRead : String → Option (String × GoTime × Int))
    (unm : String → PostData → Option PostData)
    (cfg : Config) (hostU : String) (d : FileInfo) : ItemOutcome :=
  match lookupCache cache d.Name with
  | some meta =>
    if meta.FileModTime.equal d.ModTime && meta.FileSize == d.Size then .hit meta
    else gentocLoad fsRead unm cfg hostU d.Name
  | none => gentocLoad fsRead unm cfg hostU d.Name

/-- Outcome of a whole regeneration pass: either a result list, or a panic
that aborted the pass. -/
inductive PassResult where
  | ok (metas : List PostData)
  | panicked (msg : String)
deriving DecidableEq

/-- Prepend a resolved record to a pass result. -/
def consPR (m : PostData) : PassResult → PassResult
  | .ok l => .ok (m :: l)
  | .panicked s => .panicked s

/-- The records `gentoc` collects on its channel (post.go:425-453): cache
hits and successful parses, with read-error items dropped; a panicking parse
aborts the pass.  Records are indexed here in discovery order, which is
adequate because every consumer either keys them by `Name` or re-sorts. -/
def gentocResolve (cache : List (String × PostData))
    (fsRead : String → Option (String × GoTime × Int))
    (unm : String → PostData → Option PostData)
    (cfg : Config) (hostU : String) : List FileInfo → PassResult
  | [] => .ok []
  | d :: rest =>
    match gentocItem cache fsRead unm cfg hostU d with
    | .hit meta => consPR meta (gentocResolve cache fsRead unm cfg hostU rest)
    | .parsed meta => consPR meta (gentocResolve cache fsRead unm cfg hostU rest)
    | .dropped _ => gentocResolve cache fsRead unm cfg hostU rest
    | .fatal msg => .panicked msg

/-- The record an `ItemOutcome` contributes to the channel, if any. -/
def outcomeMeta : ItemOutcome → Option PostData
  | .hit m => some m
  | .parsed m => some m
  | .dropped _ => none
  | .fatal _ => none

/-- Whether an outcome is a process-aborting panic. -/
def isFatal : ItemOutcome → Bool
  | .fatal _ => true
  | _ => false

/-- Go map update `postCache[k] = v` on the association-list model. -/
def setKey (c : List (String × PostData)) (k : String) (v : PostData) :
    List (String × PostData) :=
  match c with
  | [] => [(k, v)]
  | (k', v') :: rest => if k' = k then (k, v) :: rest else (k', v') :: setKey rest k v

/-- The rebuilt `postCache` of `gentoc` (post.go:451-454): a fresh map filled
with `postCache[meta.Name] = meta` for every record received on the channel,
independent of the draft/permission filter. -/
def buildCache (resolved : List PostData) : List (String × PostData) :=
  resolved.foldl (fun acc m => setKey acc m.Name m) []

/-- The inclusion test of `gentoc` (post.go:455):
`(!draft && !meta.IsDraft() && !meta.NotInTOC) || (isOwner && draft) || meta.canRead(user)`. -/
def tocIncluded (draft isOwner : Bool) (user : String) (now : GoTime)
    (meta : PostData) : Bool :=
  (!draft && !(meta.IsDraft now) && !meta.NotInTOC) || (isOwner && draft) ||
    meta.canRead user

/-- The filtered list `all` of `gentoc` (post.go:452-458), before sorting. -/
def gentocAll (draft isOwner : Bool) (user : String) (now : GoTime)
    (resolved : List PostData) : List PostData :=
  resolved.filter (fun meta => tocIncluded draft isOwner user now meta)

/-- The documented contract of `sort.Sort(byTime(all))` (post.go:326-330,459):
the output is a permutation of the input ordered by `byTime.Less`, i.e.
non-ascending in `Date` (`Less i j = x[i].Date.After(x[j].Date)`).
`sort.Sort` guarantees nothing further; in particular it is not stable. -/
def goSortRel (l out : List PostData) : Prop :=
  l.Perm out ∧ out.Pairwise (fun a b => b.Date.sec ≤ a.Date.sec)

/-- A sort result preserves the relative order of records sharing a
timestamp (the characterization of stability used to state claim C8). -/
def sortStability (l out : List PostData) : Prop :=
  ∀ s : Int, out.filter (fun p => p.Date.sec == s) = l.filter (fun p => p.Date.sec == s)

/-- The feed-entry selection of `atomfeed` (post.go:519-527): everything when
at most ten items, otherwise the first ten plus the later favorites. -/
def feedShow (all : List PostData) : List PostData :=
  if all.length > 10 then
    all.take 10 ++ (all.drop 10).filter (fun m => m.Favorite)
  else all

/-- The non-draft records `atomfeed` keeps (post.go:505-516). -/
def atomfeedNonDrafts (now : GoTime) (metas : List PostData) : List PostData :=
  metas.filter (fun m => !(m.IsDraft now))

/-- The `show[0].Date` access anchoring the feed metadata (post.go:543);
`none` models the index-out-of-range panic on an empty selection. -/
def feedAnchor (shown : List PostData) : Option GoTime :=
  match shown with
  | [] => none
  | m :: _ => some m.Date

/-- Whether a `loadPost` result is a successful load. -/
def isOkLoad : LoadResult → Bool
  | .ok _ _ => true
  | _ => false

/-- The per-entry loop of `atomfeed` (post.go:505-516): every listed entry is
loaded afresh (no metadata cache); any load failure is a panic fatal to the
pass; drafts are skipped; the parsed body is kept on the record. -/
def atomfeedCollect (fsRead : String → Option (String × GoTime × Int))
    (unm : String → PostData → Option PostData)
    (cfg : Config) (hostU : String) (now : GoTime) : List FileInfo → PassResult
  | [] => .ok []
  | d :: rest =>
    match loadPost fsRead unm cfg hostU d.Name with
    | .readError => .panicked ("loadPost " ++ d.Name)
    | .panicked msg => .panicked msg
    | .ok meta article =>
      if meta.IsDraft now then atomfeedCollect fsRead unm cfg hostU now rest
      else consPR { meta with article := article }
        (atomfeedCollect fsRead unm cfg hostU now rest)

/-- The content tree served by the `appfs` storage collaborator. -/
inductive Tree where
  | file (name : String) (modTime : GoTime) (size : Int)
  | dir (name : String) (modTime : GoTime) (size : Int) (children : List Tree)

/-- The `proto.FileInfo` the storage collaborator reports for one child. -/
def childInfo : Tree → FileInfo
  | .file n mt sz => ⟨n, false, mt, sz⟩
  | .dir n mt sz _ => ⟨n, true, mt, sz⟩

/-- `c.ReadDir(root)` (post.go:364): the immediate children of a directory,
files and subdirectories alike, with their plain names. -/
def readDirTop (children : List Tree) : List FileInfo :=
  children.map childInfo

/-- `path.Join` on the clean, slash-free segments this code produces. -/
def pathJoin (a b : String) : String := a ++ "/" ++ b

/-- The files one iteration of `readDirEllipses` appends to `r`
(post.go:378-386), with names rewritten to root-relative paths. -/
def rdeFiles (rpath : String) (children : List Tree) : List FileInfo :=
  children.filterMap (fun t =>
    match t with
    | .file n mt sz => some ⟨pathJoin rpath n, false, mt, sz⟩
    | .dir _ _ _ _ => none)

/-- The subdirectories one iteration of `readDirEllipses` enqueues
(post.go:380-382). -/
def rdeDirs (rpath : String) (children : List Tree) : List (String × List Tree) :=
  children.filterMap (fun t =>
    match t with
    | .file _ _ _ => none
    | .dir n _ _ cs => some (pathJoin rpath n, cs))

/-- Size of a forest, used to justify termination of the BFS queue loop. -/
def treesSize : List Tree → Nat
  | [] => 0
  | .file _ _ _ :: ts => 1 + treesSize ts
  | .dir _ _ _ cs :: ts => 1 + treesSize cs + treesSize ts

/-- Total size of the trees held in the BFS queue. -/
def queueSize : List (String × List Tree) → Nat
  | [] => 0
  | (_, cs) :: rest => treesSize cs + queueSize rest

theorem queueSize_append (a b : List (String × List Tree)) :
    queueSize (a ++ b) = queueSize a + queueSize b := by
  induction a with
  | nil => simp [queueSize]
  | cons hd tl ih =>
    obtain ⟨r, cs⟩ := hd
    simp [queueSize, ih]
    omega

theorem rdeDirs_size (rpath : String) (children : List Tree) :
    2 * queueSize (rdeDirs rpath children) + (rdeDirs rpath children).length ≤
      2 * treesSize children := by
  induction children with
  | nil => simp [rdeDirs, treesSize, queueSize]
  | cons hd tl ih =>
    cases hd with
    | file n mt sz =>
      simp only [rdeDirs, List.filterMap_cons] at ih ⊢
      simp only [treesSize]
      omega
    | dir n mt sz cs =>
      simp only [rdeDirs, List.filterMap_cons] at ih ⊢
      simp only [treesSize, queueSize, List.length_cons]
      omega

theorem rde_dec (rpath : String) (children : List Tree)
    (rest : List (String × List Tree)) :
    2 * queueSize (rest ++ rdeDirs rpath children) +
        (rest ++ rdeDirs rpath children).length <
      2 * queueSize ((rpath, children) :: rest) +
        ((rpath, children) :: rest).length := by
  have := rdeDirs_size rpath children
  simp only [queueSize_append, List.length_append, queueSize, List.length_cons]
  omega

/-- The queue loop of `readDirEllipses` (post.go:370-390): breadth-first over
an explicit queue of pending directories; each iteration emits the popped
directory's files and enqueues its subdirectories. -/
def rdeLoop : List (String × List Tree) → List FileInfo
  | [] => []
  | (rpath, children) :: rest =>
    rdeFiles rpath children ++ rdeLoop (rest ++ rdeDirs rpath children)
termination_by q => 2 * queueSize q + q.length
decreasing_by
  exact rde_dec _ _ _

/-- `readDirEllipses c root` (post.go:370) on a root whose immediate children
are `rootChildren`. -/
def readDirEllipses (root : String) (rootChildren : List Tree) : List FileInfo :=
  rdeLoop [(root, rootChildren)]

/-- Pool capacity `par` (post.go:419). -/
def par : Nat := 20

/-- Position of the coordinating flow of `gentoc`: still dispatching items,
in the final permit-draining loop having taken `k` permits, or finished. -/
inductive RPhase where
  | dispatching
  | waiting (k : Nat)
  | done
deriving DecidableEq

/-- State of the bounded refresher (post.go:417-449): the undisbatched tail
of `dir`, the tokens in the `limit` channel, and the running parse
goroutines.  Channel sends on `ch` never block (its buffer is `len(dir)`),
so they need no representation. -/
structure RState where
  pending : List FileInfo
  permits : Nat
  running : Nat
  phase : RPhase
deriving DecidableEq

/-- Interleaving semantics of the refresher. `hit`: a cache-valid item is
answered from the cache, touching no permit (post.go:426-432). `acquire`: a
stale item takes one permit and its parse goroutine starts (post.go:434-435).
`finish`: a running parse ends — success or failure — and its deferred send
returns the permit (post.go:436). `startWait`: the dispatch loop ends.
`take`: the wait loop receives one of the `par` permits it demands
(post.go:446-448). `finishWait`: after exactly `par` receipts the pass
completes. -/
inductive RStep (cache : List (String × PostData)) : RState → RState → Prop where
  | hit (d : FileInfo) (rest : List FileInfo) (p r : Nat) :
      cacheHit cache d = true →
      RStep cache ⟨d :: rest, p, r, .dispatching⟩ ⟨rest, p, r, .dispatching⟩
  | acquire (d : FileInfo) (rest : List FileInfo) (p r : Nat) :
      cacheHit cache d = false →
      RStep cache ⟨d :: rest, p + 1, r, .dispatching⟩ ⟨rest, p, r + 1, .dispatching⟩
  | finish (pend : List FileInfo) (p r : Nat) (ph : RPhase) :
      RStep cache ⟨pend, p, r + 1, ph⟩ ⟨pend, p + 1, r, ph⟩
  | startWait (p r : Nat) :
      RStep cache ⟨[], p, r, .dispatching⟩ ⟨[], p, r, .waiting 0⟩
  | take (p r k : Nat) :
      k < par →
      RStep cache ⟨[], p + 1, r, .waiting k⟩ ⟨[], p, r, .waiting (k + 1)⟩
  | finishWait (p r : Nat) :
      RStep cache ⟨[], p, r, .waiting par⟩ ⟨[], p, r, .done⟩

/-- Permits the wait loop has already received in a given phase. -/
def takenOf : RPhase → Nat
  | .dispatching => 0
  | .waiting k => k
  | .done => par

/-- Conservation invariant: free permits, running parses and wait-loop
receipts always account for the full pool, and the queue is empty once the
dispatch loop has ended. -/
def InvR (s : RState) : Prop :=
  s.permits + s.running + takenOf s.phase = par ∧
  takenOf s.phase ≤ par ∧
  (s.phase ≠ .dispatching → s.pending = [])

/-- Phase component of the termination measure. -/
def phaseTerm : RPhase → Nat
  | .dispatching => par + 2
  | .waiting k => par + 1 - k
  | .done => 0

/-- Termination measure: strictly decreases along every step. -/
def rMeasure (s : RState) : Nat :=
  3 * s.pending.length + 2 * s.running + s.permits + phaseTerm s.phase

/-- Initial refresher state (post.go:417-423): the full listing pending, all
`par` permits in the channel, nothing running. -/
def rInit (dir : List FileInfo) : RState := ⟨dir, par, 0, .dispatching⟩

/-- An all-empty configuration, for concrete instances. -/
def cfg0 : Config := ⟨"", "", "", "", "", "", "", ""⟩

/-- A concrete record with the given name, publish second and favorite flag. -/
def mkPost (name : String) (sec : Int) (fav : Bool) : PostData :=
  { defaultPost cfg0 "" name with Date := ⟨sec⟩, Favorite := fav }

/-- A reference instant for concrete instances. -/
def cexNow : GoTime := ⟨100⟩

/-- A draft record (publish instant after `cexNow`) readable by "alice". -/
def cexDraftPost : PostData :=
  { defaultPost cfg0 "" "secret" with Date := ⟨200⟩, Reader := ["alice"] }

/-- Fifteen records in strictly descending publish order; two of the five
oldest are favorites. -/
def c15 : List PostData :=
  [mkPost "p00" 15 false, mkPost "p01" 14 false, mkPost "p02" 13 false,
   mkPost "p03" 12 false, mkPost "p04" 11 false, mkPost "p05" 10 false,
   mkPost "p06" 9 false, mkPost "p07" 8 false, mkPost "p08" 7 false,
   mkPost "p09" 6 false, mkPost "p10" 5 false, mkPost "p11" 4 true,
   mkPost "p12" 3 false, mkPost "p13" 2 true, mkPost "p14" 1 false]

/-- Two distinct records sharing one publish instant. -/
def pTieA : PostData := mkPost "a" 50 false

/-- Second record of the shared-instant pair. -/
def pTieB : PostData := mkPost "b" 50 false

/-- Records with distinct instants, for the descending-sort witness. -/
def pOld : PostData := mkPost "x" 1 false

/-- The newer record of the distinct-instant pair. -/
def pNew : PostData := mkPost "y" 3 false

/-- A single non-draft record for the feed-anchor witness. -/
def mFeed : PostData := mkPost "w9" 5 false

/-- A content root holding one subdirectory with one file inside. -/
def cexChildren : List Tree := [Tree.dir "d" ⟨1⟩ 0 [Tree.file "f" ⟨2⟩ 3]]

/-- A flat content root (files only), for the scan-agreement witness. -/
def flatChildren : List Tree := [Tree.file "f1" ⟨1⟩ 2, Tree.file "f2" ⟨3⟩ 4]

/-- A filesystem with one file whose metadata block `json.Unmarshal` will
reject. -/
def fsBad : String → Option (String × GoTime × Int) :=
  fun n => if n == "p1" then some ("\x7b\nX\n\x7d\nmore", ⟨5⟩, 9) else none

/-- A `json.Unmarshal` collaborator that rejects every header. -/
def unmFail : String → PostData → Option PostData := fun _ _ => none

/-- The listing containing the malformed item. -/
def dirBad : List FileInfo := [⟨"p1", false, ⟨5⟩, 9⟩]

/-- A filesystem with one headerless file "p1". -/
def fsPlain : String → Option (String × GoTime × Int) :=
  fun n => if n == "p1" then some ("hello", ⟨7⟩, 5) else none

/-- A `json.Unmarshal` collaborator that accepts and changes nothing. -/
def unmId : String → PostData → Option PostData := fun _ m => some m

/-- A previous snapshot holding an identifier no longer discovered. -/
def cacheW : List (String × PostData) := [("gone", mkPost "gone" 1 false)]

/-- The listing for the snapshot witness. -/
def dirW : List FileInfo := [⟨"p1", false, ⟨7⟩, 5⟩]

/-- The record the snapshot-witness pass parses for "p1". -/
def mW : PostData := { defaultPost cfg0 "" "p1" with FileModTime := ⟨7⟩, FileSize := 5 }

theorem gentocLoad_ne_hit (fsRead : String → Option (String × GoTime × Int))
    (unm : String → PostData → Option PostData) (cfg : Config)
    (hostU name : String) (m : PostData) :
    gentocLoad fsRead unm cfg hostU name ≠ .hit m := by
  unfold gentocLoad
  cases h : loadPost fsRead unm cfg hostU name <;> simp

theorem cacheHit_eq_some (cache : List (String × PostData)) (d : FileInfo)
    (meta : PostData) (hl : lookupCache cache d.Name = some meta) :
    cacheHit cache d = (meta.FileModTime.equal d.ModTime && meta.FileSize == d.Size) := by
  unfold cacheHit
  rw [hl]

theorem cacheHit_eq_none (cache : List (String × PostData)) (d : FileInfo)
    (hl : lookupCache cache d.Name = none) : cacheHit cache d = false := by
  unfold cacheHit
  rw [hl]

theorem gentocItem_miss (cache : List (String × PostData))
    (fsRead : String → Option (String × GoTime × Int))
    (unm : String → PostData → Option PostData) (cfg : Config) (hostU : String)
    (d : FileInfo) (h : cacheHit cache d = false) :
    gentocItem cache fsRead unm cfg hostU d = gentocLoad fsRead unm cfg hostU d.Name := by
  unfold gentocItem
  cases hl : lookupCache cache d.Name with
  | none => simp
  | some meta =>
    rw [cacheHit_eq_some cache d meta hl] at h
    simp [h]

theorem gentocItem_hit (cache : List (String × PostData))
    (fsRead : String → Option (String × GoTime × Int))
    (unm : String → PostData → Option PostData) (cfg : Config) (hostU : String)
    (d : FileInfo) (h : cacheHit cache d = true) :
    ∃ meta, lookupCache cache d.Name = some meta
      ∧ gentocItem cache fsRead unm cfg hostU d = .hit meta := by
  unfold gentocItem
  cases hl : lookupCache cache d.Name with
  | none =>
    rw [cacheHit_eq_none cache d hl] at h
    simp at h
  | some meta =>
    refine ⟨meta, rfl, ?_⟩
    rw [cacheHit_eq_some cache d meta hl] at h
    simp [h]

/-- C1 (amended): a record is included in the published index iff it is not a
draft and not `NotInTOC` **or** its reader list contains the caller (the
`canRead` disjunct of post.go:455 applies in both modes); it is included in
the draft index iff the caller is the owner or the reader list contains the
caller. -/
theorem toc_inclusion_amended (isOwner : Bool) (user : String) (now : GoTime)
    (meta : PostData) (resolved : List PostData) :
    (tocIncluded false isOwner user now meta
        = ((!(meta.IsDraft now) && !meta.NotInTOC) || meta.canRead user))
    ∧ (tocIncluded true isOwner user now meta = (isOwner || meta.canRead user))
    ∧ (meta ∈ gentocAll false isOwner user now resolved
        ↔ meta ∈ resolved
          ∧ ((!(meta.IsDraft now) && !meta.NotInTOC) || meta.canRead user) = true)
    ∧ (meta ∈ gentocAll true isOwner user now resolved
        ↔ meta ∈ resolved ∧ (isOwner || meta.canRead user) = true) := by
  refine ⟨?_, ?_, ?_, ?_⟩
  · simp [tocIncluded]
  · simp [tocIncluded]
  · simp [gentocAll, List.mem_filter, tocIncluded]
  · simp [gentocAll, List.mem_filter, tocIncluded]

/-- C1 (counterexample): a draft record whose reader list contains the caller
is included in the published (non-draft) index, although the claim says the
published index holds a record iff it is not a draft and not excluded. -/
theorem toc_inclusion_counterexample :
    cexDraftPost.IsDraft cexNow = true
    ∧ cexDraftPost.NotInTOC = false
    ∧ tocIncluded false false "alice" cexNow cexDraftPost = true
    ∧ cexDraftPost ∈ gentocAll false false "alice" cexNow [cexDraftPost] := by
  refine ⟨by decide, by decide, by decide, by decide⟩

/-- C4: a cached record is reused — the item resolves as a `hit`, consuming
no permit — iff an entry for the identifier exists whose recorded
modification time and size both equal the current listing's; any mismatch or
absence routes the item through `gentocLoad` (a reparse), which acquires a
permit. -/
theorem cache_validity (cache : List (String × PostData))
    (fsRead : String → Option (String × GoTime × Int))
    (unm : String → PostData → Option PostData)
    (cfg : Config) (hostU : String) (d : FileInfo) :
    ((∃ m, gentocItem cache fsRead unm cfg hostU d = .hit m) ↔ cacheHit cache d = true)
    ∧ (cacheHit cache d = true
        ↔ ∃ meta, lookupCache cache d.Name = some meta
            ∧ meta.FileModTime.sec = d.ModTime.sec ∧ meta.FileSize = d.Size)
    ∧ (cacheHit cache d = false →
        gentocItem cache fsRead unm cfg hostU d = gentocLoad fsRead unm cfg hostU d.Name)
    ∧ (∀ p r rest, cacheHit cache d = true →
        RStep cache ⟨d :: rest, p, r, .dispatching⟩ ⟨rest, p, r, .dispatching⟩)
    ∧ (∀ p r rest, cacheHit cache d = false →
        RStep cache ⟨d :: rest, p + 1, r, .dispatching⟩ ⟨rest, p, r + 1, .dispatching⟩) := by
  refine ⟨?_, ?_, gentocItem_miss cache fsRead unm cfg hostU d,
    fun p r rest h => RStep.hit d rest p r h,
    fun p r rest h => RStep.acquire d rest p r h⟩
  · constructor
    · rintro ⟨m, hm⟩
      by_cases hc : cacheHit cache d = true
      · exact hc
      · rw [Bool.not_eq_true] at hc
        rw [gentocItem_miss cache fsRead unm cfg hostU d hc] at hm
        exact absurd hm (gentocLoad_ne_hit fsRead unm cfg hostU d.Name m)
    · intro hc
      obtain ⟨meta, _, hit⟩ := gentocItem_hit cache fsRead unm cfg hostU d hc
      exact ⟨meta, hit⟩
  · unfold cacheHit
    cases hl : lookupCache cache d.Name with
    | none => simp
    | some meta =>
      simp [GoTime.equal, beq_iff_eq]

/-- C7: `blogTime.UnmarshalJSON` tries exactly three layouts in a fixed
order — RFC3339, then the weekday form, then the month-day-hour form — and
returns the first successful parse; when all three fail it returns the
`did not recognize time` error. -/
theorem time_formats_order (timeParse : String → String → Option GoTime)
    (data : String) :
    timeFormats
      = [rfc3339Format, "Monday, January 2, 2006", "January 2, 2006 15:00 -0700"]
    ∧ ("\"" ++ rfc3339Format ++ "\"") = "\"2006-01-02T15:04:05Z07:00\""
    ∧ blogTimeUnmarshalJSON timeParse data =
        (match timeParse "\"2006-01-02T15:04:05Z07:00\"" data with
         | some t1 => Except.ok t1
         | none =>
           match timeParse "\"Monday, January 2, 2006\"" data with
           | some t2 => Except.ok t2
           | none =>
             match timeParse "\"January 2, 2006 15:00 -0700\"" data with
             | some t3 => Except.ok t3
             | none => Except.error ("did not recognize time: " ++ data)) := by
  refine ⟨rfl, rfl, ?_⟩
  simp only [blogTimeUnmarshalJSON, timeFormats, tryFormats, rfc3339Format]
  cases h1 : timeParse "\"2006-01-02T15:04:05Z07:00\"" data with
  | some t1 => simp [h1]
  | none =>
    simp only [h1]
    cases h2 : timeParse "\"Monday, January 2, 2006\"" data with
    | some t2 => simp [h1, h2]
    | none =>
      simp only [h2]
      cases h3 : timeParse "\"January 2, 2006 15:00 -0700\"" data with
      | some t3 => simp [h1, h2, h3]
      | none => simp [h1, h2, h3]

/-- C3: on a record list sorted descending by publish instant, the feed
selection is the first ten records followed by the favorites among the rest
in their original order; the ten kept records are the most recent ones and
stay in recency order. -/
theorem feed_selection (now : GoTime) (all : List PostData)
    (hsort : all.Pairwise (fun a b => b.Date.sec ≤ a.Date.sec))
    (hnd : ∀ m ∈ all, m.IsDraft now = false) :
    feedShow all = all.take 10 ++ (all.drop 10).filter (fun m => m.Favorite)
    ∧ (∀ a ∈ all.take 10, ∀ b ∈ all.drop 10, b.Date.sec ≤ a.Date.sec)
    ∧ (all.take 10).Pairwise (fun a b => b.Date.sec ≤ a.Date.sec) := by
  refine ⟨?_, ?_, List.Pairwise.sublist (List.take_sublist 10 all) hsort⟩
  · unfold feedShow
    split
    · rfl
    · rename_i hle
      push_neg at hle
      rw [List.take_of_length_le hle, List.drop_eq_nil_of_le hle]
      simp
  · have hps : (all.take 10 ++ all.drop 10).Pairwise
        (fun a b => b.Date.sec ≤ a.Date.sec) := by
      rw [List.take_append_drop]
      exact hsort
    exact fun a ha b hb => (List.pairwise_append.mp hps).2.2 a ha b hb

/-- C3 (witness): the fifteen-record instance — strictly descending, all
non-draft, favorites at the twelfth and fourteenth positions — yields a feed
of exactly twelve entries: the ten most recent, then those two favorites. -/
theorem feed_selection_witness :
    c15.Pairwise (fun a b => b.Date.sec ≤ a.Date.sec)
    ∧ feedShow c15 = c15.take 10 ++ (c15.drop 10).filter (fun m => m.Favorite)
    ∧ (feedShow c15).length = 12
    ∧ feedShow c15 = c15.take 10 ++ [mkPost "p11" 4 true, mkPost "p13" 2 true] := by
  refine ⟨by decide, (feed_selection ⟨100⟩ c15 (by decide) (by decide)).1,
    by decide, by decide⟩

/-- C8 (amended): any output admitted by the `sort.Sort(byTime(all))`
contract is a permutation ordered non-ascending in `Date`; when the input's
publish instants are pairwise distinct the output is strictly descending.
No tie order is guaranteed. -/
theorem sort_descending_amended (l out : List PostData)
    (hs : goSortRel l out)
    (hnd : (l.map (fun p => p.Date.sec)).Nodup) :
    out.Pairwise (fun a b => b.Date.sec < a.Date.sec) := by
  obtain ⟨hperm, hpw⟩ := hs
  have hnd2 : (out.map (fun p => p.Date.sec)).Nodup :=
    (hperm.map (fun p => p.Date.sec)).nodup_iff.mp hnd
  have hne : out.Pairwise (fun a b => a.Date.sec ≠ b.Date.sec) :=
    List.pairwise_map.mp hnd2
  exact (hpw.and hne).imp (fun h => lt_of_le_of_ne h.1 (fun he => h.2 he.symm))

/-- C8 (counterexample): the `sort.Sort` contract admits an output that
reverses two distinct records sharing a publish instant, so records sharing
a timestamp are not guaranteed to retain encounter order (`sort.Sort` is
documented as unstable; `sort.Stable` is not used). -/
theorem sort_stability_counterexample :
    goSortRel [pTieA, pTieB] [pTieB, pTieA]
    ∧ pTieA.Date.sec = pTieB.Date.sec
    ∧ pTieA ≠ pTieB
    ∧ ¬ sortStability [pTieA, pTieB] [pTieB, pTieA] := by
  refine ⟨⟨by decide, by decide⟩, by decide, by decide, ?_⟩
  intro h
  exact absurd (h 50) (by decide)

/-- C8 (witness): on records with distinct instants the amended theorem
applies and yields a strictly descending output. -/
theorem sort_descending_witness :
    goSortRel [pOld, pNew] [pNew, pOld]
    ∧ [pNew, pOld].Pairwise (fun a b => b.Date.sec < a.Date.sec) := by
  refine ⟨⟨by decide, by decide⟩, ?_⟩
  exact sort_descending_amended [pOld, pNew] [pNew, pOld] ⟨by decide, by decide⟩ (by decide)

theorem feedShow_eq_nil (l : List PostData) : feedShow l = [] ↔ l = [] := by
  unfold feedShow
  split
  · rename_i hgt
    constructor
    · intro hx
      exfalso
      rw [List.append_eq_nil] at hx
      have hlen := congrArg List.length hx.1
      rw [List.length_take] at hlen
      simp only [List.length_nil] at hlen
      omega
    · intro hx
      subst hx
      simp at hgt
  · exact Iff.rfl

/-- C9: the feed-level anchor access `show[0]` fails (the index-out-of-range
panic the spec names `EmptyFeed`) iff the refreshed set holds zero non-draft
records; with at least one non-draft record the anchor exists. -/
theorem empty_feed_error (now : GoTime) (metas sortedAll : List PostData)
    (hs : goSortRel (atomfeedNonDrafts now metas) sortedAll) :
    feedAnchor (feedShow sortedAll) = none ↔ atomfeedNonDrafts now metas = [] := by
  obtain ⟨hperm, _⟩ := hs
  constructor
  · intro h
    have h1 : feedShow sortedAll = [] := by
      cases hfa : feedShow sortedAll with
      | nil => rfl
      | cons a l =>
        rw [hfa] at h
        simp [feedAnchor] at h
    have h2 := (feedShow_eq_nil sortedAll).mp h1
    exact List.Perm.eq_nil (h2 ▸ hperm)
  · intro h
    rw [h] at hperm
    have h3 : sortedAll = [] := (List.Perm.nil_eq hperm).symm
    rw [h3]
    rfl

/-- C9 (witness): with one non-draft record the hypothesis holds and the
anchor exists (the iff's right side is false, hence so is the left). -/
theorem empty_feed_error_witness :
    (feedAnchor (feedShow [mFeed]) = none ↔ atomfeedNonDrafts ⟨100⟩ [mFeed] = [])
    ∧ feedAnchor (feedShow [mFeed]) = some ⟨5⟩ := by
  refine ⟨empty_feed_error ⟨100⟩ [mFeed] [mFeed] ⟨by decide, by decide⟩, by decide⟩

theorem rdeDirs_nil_of_files (rpath : String) :
    ∀ children : List Tree,
      (∀ t ∈ children, ∃ n mt sz, t = Tree.file n mt sz) →
      rdeDirs rpath children = [] := by
  intro children
  induction children with
  | nil => intro _; rfl
  | cons hd tl ih =>
    intro hf
    obtain ⟨n, mt, sz, hfile⟩ := hf hd (by simp)
    subst hfile
    have htl := ih (fun t ht => hf t (by simp [ht]))
    simpa [rdeDirs, List.filterMap_cons] using htl

theorem rdeFiles_of_files (rpath : String) :
    ∀ children : List Tree,
      (∀ t ∈ children, ∃ n mt sz, t = Tree.file n mt sz) →
      rdeFiles rpath children
        = (readDirTop children).map
            (fun fi => { fi with Name := pathJoin rpath fi.Name }) := by
  intro children
  induction children with
  | nil => intro _; rfl
  | cons hd tl ih =>
    intro hf
    obtain ⟨n, mt, sz, hfile⟩ := hf hd (by simp)
    subst hfile
    have htl := ih (fun t ht => hf t (by simp [ht]))
    simp [rdeFiles, readDirTop, childInfo, List.filterMap_cons] at htl ⊢
    exact htl

/-- C5 (amended): the index pass lists the content tree recursively
(`readDirEllipses`, BFS with root-relative names) while the feed pass lists
only the immediate children with plain names (`c.ReadDir`) and parses each
item afresh with no metadata-cache consult; for a content root containing no
subdirectories the two listings coincide up to the root-path prefix on
identifiers. -/
theorem pipeline_scan_amended (root : String) (children : List Tree)
    (hf : ∀ t ∈ children, ∃ n mt sz, t = Tree.file n mt sz) :
    readDirEllipses root children
      = (readDirTop children).map
          (fun fi => { fi with Name := pathJoin root fi.Name }) := by
  unfold readDirEllipses
  simp only [rdeLoop]
  rw [rdeDirs_nil_of_files root children hf]
  simp [rdeLoop, rdeFiles_of_files root children hf]

/-- C5 (counterexample): on a tree holding one subdirectory with one file,
the index scan discovers the nested file while the feed listing reports only
the directory entry itself, so the two passes do not draw their record sets
from the same scan. -/
theorem pipeline_scan_counterexample :
    readDirEllipses "blog/post" cexChildren
      = [⟨pathJoin (pathJoin "blog/post" "d") "f", false, ⟨2⟩, 3⟩]
    ∧ readDirTop cexChildren = [⟨"d", true, ⟨1⟩, 0⟩]
    ∧ readDirEllipses "blog/post" cexChildren
        ≠ (readDirTop cexChildren).map
            (fun fi => { fi with Name := pathJoin "blog/post" fi.Name }) := by
  have e1 : readDirEllipses "blog/post" cexChildren
      = [⟨pathJoin (pathJoin "blog/post" "d") "f", false, ⟨2⟩, 3⟩] := by
    simp [readDirEllipses, cexChildren, rdeLoop, rdeFiles, rdeDirs, childInfo,
      List.filterMap_cons]
  refine ⟨e1, rfl, ?_⟩
  rw [e1]
  decide

/-- C5 (witness): on a flat tree the amended agreement holds. -/
theorem pipeline_scan_witness :
    readDirEllipses "blog/post" flatChildren
      = (readDirTop flatChildren).map
          (fun fi => { fi with Name := pathJoin "blog/post" fi.Name }) := by
  refine pipeline_scan_amended "blog/post" flatChildren ?_
  intro t ht
  simp only [flatChildren, List.mem_cons, List.mem_singleton] at ht
  rcases ht with rfl | rfl | h
  · exact ⟨"f1", ⟨1⟩, 2, rfl⟩
  · exact ⟨"f2", ⟨3⟩, 4, rfl⟩
  · simp at h

theorem resolve_no_fatal (cache : List (String × PostData))
    (fsRead : String → Option (String × GoTime × Int))
    (unm : String → PostData → Option PostData) (cfg : Config) (hostU : String) :
    ∀ dir : List FileInfo,
      (∀ d ∈ dir, isFatal (gentocItem cache fsRead unm cfg hostU d) = false) →
      gentocResolve cache fsRead unm cfg hostU dir
        = .ok (dir.filterMap (fun d => outcomeMeta (gentocItem cache fsRead unm cfg hostU d))) := by
  intro dir
  induction dir with
  | nil => intro _; rfl
  | cons d rest ih =>
    intro h
    have hrest := ih (fun d2 hd2 => h d2 (by simp [hd2]))
    cases hgi : gentocItem cache fsRead unm cfg hostU d with
    | hit m =>
      simp [gentocResolve, hgi, hrest, consPR, outcomeMeta, List.filterMap_cons]
    | parsed m =>
      simp [gentocResolve, hgi, hrest, consPR, outcomeMeta, List.filterMap_cons]
    | dropped nm =>
      simp [gentocResolve, hgi, hrest, outcomeMeta, List.filterMap_cons]
    | fatal msg =>
      have hx := h d (by simp)
      rw [hgi] at hx
      simp [isFatal] at hx

theorem atomfeed_fails (fsRead : String → Option (String × GoTime × Int))
    (unm : String → PostData → Option PostData) (cfg : Config) (hostU : String)
    (now : GoTime) :
    ∀ dir : List FileInfo, ∀ d ∈ dir,
      isOkLoad (loadPost fsRead unm cfg hostU d.Name) = false →
      ∃ msg, atomfeedCollect fsRead unm cfg hostU now dir = .panicked msg := by
  intro dir
  induction dir with
  | nil => intro d hd; simp at hd
  | cons d0 rest ih =>
    intro d hd hbad
    cases hl : loadPost fsRead unm cfg hostU d0.Name with
    | readError => exact ⟨"loadPost " ++ d0.Name, by simp [atomfeedCollect, hl]⟩
    | panicked msg => exact ⟨msg, by simp [atomfeedCollect, hl]⟩
    | ok meta article =>
      rcases List.mem_cons.mp hd with rfl | hdr
      · rw [hl] at hbad
        simp [isOkLoad] at hbad
      · obtain ⟨msg, hmsg⟩ := ih d hdr hbad
        refine ⟨msg, ?_⟩
        simp only [atomfeedCollect, hl]
        split
        · exact hmsg
        · rw [hmsg]
          rfl

/-- C6 (amended): in the index pass a file whose bytes cannot be read is
dropped with a logged warning and the pass completes from the remaining
items; but a metadata header `json.Unmarshal` rejects makes `loadPost` panic,
which aborts the whole pass, and in the feed pass any load failure at all
aborts the pass. -/
theorem parse_failure_amended (cache : List (String × PostData))
    (fsRead : String → Option (String × GoTime × Int))
    (unm : String → PostData → Option PostData) (cfg : Config) (hostU : String)
    (now : GoTime) (dir : List FileInfo) :
    ((∀ d ∈ dir, isFatal (gentocItem cache fsRead unm cfg hostU d) = false) →
        gentocResolve cache fsRead unm cfg hostU dir
          = .ok (dir.filterMap (fun d => outcomeMeta (gentocItem cache fsRead unm cfg hostU d))))
    ∧ (∀ d : FileInfo, cacheHit cache d = false → fsRead d.Name = none →
        gentocItem cache fsRead unm cfg hostU d = .dropped d.Name
          ∧ outcomeMeta (gentocItem cache fsRead unm cfg hostU d) = none)
    ∧ (∀ (d : FileInfo) (msg : String), cacheHit cache d = false →
        loadPost fsRead unm cfg hostU d.Name = .panicked msg →
        gentocItem cache fsRead unm cfg hostU d = .fatal msg)
    ∧ (∀ d ∈ dir, isOkLoad (loadPost fsRead unm cfg hostU d.Name) = false →
        ∃ msg, atomfeedCollect fsRead unm cfg hostU now dir = .panicked msg) := by
  refine ⟨resolve_no_fatal cache fsRead unm cfg hostU dir, ?_, ?_,
    atomfeed_fails fsRead unm cfg hostU now dir⟩
  · intro d hmiss hread
    have hlp : loadPost fsRead unm cfg hostU d.Name = .readError := by
      unfold loadPost
      rw [hread]
    rw [gentocItem_miss cache fsRead unm cfg hostU d hmiss]
    unfold gentocLoad
    rw [hlp]
    exact ⟨rfl, rfl⟩
  · intro d msg hmiss hpanic
    rw [gentocItem_miss cache fsRead unm cfg hostU d hmiss]
    unfold gentocLoad
    rw [hpanic]

/-- C6 (counterexample): a file whose metadata header cannot be parsed makes
both the index pass and the feed pass panic (`loading p1`) rather than being
dropped with a logged warning. -/
theorem parse_failure_counterexample :
    gentocResolve [] fsBad unmFail cfg0 "" dirBad = .panicked "loading p1"
    ∧ atomfeedCollect fsBad unmFail cfg0 "" ⟨100⟩ dirBad = .panicked "loading p1" := by
  exact ⟨by decide, by decide⟩

theorem lookupCache_nil (n : String) : lookupCache [] n = none := rfl

theorem lookupCache_cons (k2 : String) (v2 : PostData)
    (tl : List (String × PostData)) (n : String) :
    lookupCache ((k2, v2) :: tl) n = if k2 = n then some v2 else lookupCache tl n := by
  by_cases h : k2 = n
  · simp [lookupCache, List.find?, h]
  · have hb : (k2 == n) = false := by simp [h]
    simp [lookupCache, List.find?, hb, h]

theorem lookup_setKey_cases (k : String) (v : PostData) (n : String) :
    ∀ c : List (String × PostData),
      lookupCache (setKey c k v) n = if k = n then some v else lookupCache c n := by
  intro c
  induction c with
  | nil =>
    simp only [setKey]
    rw [lookupCache_cons]
  | cons hd tl ih =>
    obtain ⟨k2, v2⟩ := hd
    by_cases hk : k2 = k
    · subst hk
      have hs : setKey ((k2, v2) :: tl) k2 v = (k2, v) :: tl := by
        simp [setKey]
      rw [hs, lookupCache_cons, lookupCache_cons]
      by_cases h : k2 = n <;> simp [h]
    · have hs : setKey ((k2, v2) :: tl) k v = (k2, v2) :: setKey tl k v := by
        simp [setKey, hk]
      rw [hs, lookupCache_cons, lookupCache_cons, ih]
      by_cases h2 : k2 = n
      · subst h2
        have hne : ¬ k = k2 := fun he => hk he.symm
        simp [hne]
      · simp [h2]

theorem lookup_buildCache_aux_mem :
    ∀ (l : List PostData) (acc : List (String × PostData)) (n : String) (m : PostData),
      lookupCache (List.foldl (fun a mm => setKey a mm.Name mm) acc l) n = some m →
      lookupCache acc n = some m ∨ (m ∈ l ∧ m.Name = n) := by
  intro l
  induction l with
  | nil => intro acc n m h; exact Or.inl h
  | cons m0 rest ih =>
    intro acc n m h
    rcases ih (setKey acc m0.Name m0) n m h with h1 | h2
    · rw [lookup_setKey_cases] at h1
      by_cases he : m0.Name = n
      · rw [if_pos he] at h1
        injection h1 with h1
        exact Or.inr ⟨by simp [← h1], by rw [← h1]; exact he⟩
      · rw [if_neg he] at h1
        exact Or.inl h1
    · exact Or.inr ⟨by simp [h2.1], h2.2⟩

theorem lookup_buildCache_isSome :
    ∀ (l : List PostData) (acc : List (String × PostData)) (n : String),
      (n ∈ l.map (fun mm => mm.Name) ∨ (lookupCache acc n).isSome = true) →
      (lookupCache (List.foldl (fun a mm => setKey a mm.Name mm) acc l) n).isSome = true := by
  intro l
  induction l with
  | nil =>
    intro acc n h
    rcases h with h | h
    · simp at h
    · exact h
  | cons m0 rest ih =>
    intro acc n h
    apply ih (setKey acc m0.Name m0) n
    rcases h with h | h
    · simp only [List.map_cons, List.mem_cons] at h
      rcases h with he | hr
      · right
        rw [lookup_setKey_cases, if_pos he.symm]
        rfl
      · exact Or.inl hr
    · right
      rw [lookup_setKey_cases]
      by_cases he : m0.Name = n
      · rw [if_pos he]; rfl
      · rw [if_neg he]; exact h

theorem buildCache_mem (resolved : List PostData) (n : String) (m : PostData)
    (h : lookupCache (buildCache resolved) n = some m) :
    m ∈ resolved ∧ m.Name = n := by
  rcases lookup_buildCache_aux_mem resolved [] n m h with h1 | h2
  · rw [lookupCache_nil] at h1
    cases h1
  · exact h2

theorem buildCache_isSome (resolved : List PostData) (m : PostData)
    (hm : m ∈ resolved) :
    ∃ m2, lookupCache (buildCache resolved) m.Name = some m2 := by
  have h := lookup_buildCache_isSome resolved [] m.Name
    (Or.inl (List.mem_map_of_mem (fun mm => mm.Name) hm))
  exact Option.isSome_iff_exists.mp h

theorem loadPost_ok_name (fsRead : String → Option (String × GoTime × Int))
    (unm : String → PostData → Option PostData) (cfg : Config)
    (hostU name : String) (meta : PostData) (article : String)
    (hN : ∀ hdr mm mm2, unm hdr mm = some mm2 → mm2.Name = mm.Name)
    (hl : loadPost fsRead unm cfg hostU name = .ok meta article) :
    meta.Name = name := by
  unfold loadPost at hl
  cases hr : fsRead name with
  | none =>
    rw [hr] at hl
    simp at hl
  | some triple =>
    obtain ⟨art, mt, sz⟩ := triple
    rw [hr] at hl
    simp only at hl
    split at hl
    · split at hl
      · simp at hl
      · split at hl
        · simp at hl
        · rename_i m2 hm2
          simp only [LoadResult.ok.injEq] at hl
          obtain ⟨hmeta, _⟩ := hl
          rw [← hmeta]
          have := hN _ _ _ hm2
          simpa [defaultPost] using this
    · simp only [LoadResult.ok.injEq] at hl
      obtain ⟨hmeta, _⟩ := hl
      rw [← hmeta]
      simp [defaultPost]

theorem gentocLoad_name (fsRead : String → Option (String × GoTime × Int))
    (unm : String → PostData → Option PostData) (cfg : Config)
    (hostU name : String) (m : PostData)
    (hN : ∀ hdr mm mm2, unm hdr mm = some mm2 → mm2.Name = mm.Name)
    (h : outcomeMeta (gentocLoad fsRead unm cfg hostU name) = some m) :
    m.Name = name := by
  unfold gentocLoad at h
  cases hl : loadPost fsRead unm cfg hostU name with
  | readError =>
    rw [hl] at h
    simp [outcomeMeta] at h
  | panicked msg =>
    rw [hl] at h
    simp [outcomeMeta] at h
  | ok meta article =>
    rw [hl] at h
    simp only [outcomeMeta, Option.some.injEq] at h
    rw [← h]
    exact loadPost_ok_name fsRead unm cfg hostU name meta article hN hl

theorem resolved_name (cache : List (String × PostData))
    (fsRead : String → Option (String × GoTime × Int))
    (unm : String → PostData → Option PostData) (cfg : Config) (hostU : String)
    (d : FileInfo) (m : PostData)
    (hW : ∀ kv ∈ cache, (Prod.snd kv).Name = kv.1)
    (hN : ∀ hdr mm mm2, unm hdr mm = some mm2 → mm2.Name = mm.Name)
    (h : outcomeMeta (gentocItem cache fsRead unm cfg hostU d) = some m) :
    m.Name = d.Name := by
  by_cases hc : cacheHit cache d = true
  · obtain ⟨meta, hl, hit⟩ := gentocItem_hit cache fsRead unm cfg hostU d hc
    rw [hit] at h
    simp only [outcomeMeta, Option.some.injEq] at h
    subst h
    unfold lookupCache at hl
    cases hf : List.find? (fun p => p.1 == d.Name) cache with
    | none =>
      rw [hf] at hl
      simp at hl
    | some kv =>
      rw [hf] at hl
      have hl2 : kv.2 = meta := by simpa using hl
      have hmem := List.mem_of_find?_eq_some hf
      have hcond := List.find?_some hf
      have hkey : kv.1 = d.Name := by simpa using hcond
      have hname := hW kv hmem
      rw [← hl2]
      exact hname.trans hkey
  · rw [Bool.not_eq_true] at hc
    rw [gentocItem_miss cache fsRead unm cfg hostU d hc] at h
    exact gentocLoad_name fsRead unm cfg hostU d.Name m hN h

theorem resolve_ok_elim (cache : List (String × PostData))
    (fsRead : String → Option (String × GoTime × Int))
    (unm : String → PostData → Option PostData) (cfg : Config) (hostU : String) :
    ∀ (dir : List FileInfo) (resolved : List PostData),
      gentocResolve cache fsRead unm cfg hostU dir = .ok resolved →
      resolved
        = dir.filterMap (fun d => outcomeMeta (gentocItem cache fsRead unm cfg hostU d)) := by
  intro dir
  induction dir with
  | nil =>
    intro resolved h
    simp only [gentocResolve, PassResult.ok.injEq] at h
    simp [← h]
  | cons d rest ih =>
    intro resolved h
    cases hgi : gentocItem cache fsRead unm cfg hostU d with
    | hit m =>
      simp only [gentocResolve, hgi] at h
      cases hrec : gentocResolve cache fsRead unm cfg hostU rest with
      | panicked msg =>
        rw [hrec] at h
        simp [consPR] at h
      | ok l =>
        rw [hrec] at h
        simp only [consPR, PassResult.ok.injEq] at h
        rw [← h, List.filterMap_cons, hgi]
        simp [outcomeMeta, ih l hrec]
    | parsed m =>
      simp only [gentocResolve, hgi] at h
      cases hrec : gentocResolve cache fsRead unm cfg hostU rest with
      | panicked msg =>
        rw [hrec] at h
        simp [consPR] at h
      | ok l =>
        rw [hrec] at h
        simp only [consPR, PassResult.ok.injEq] at h
        rw [← h, List.filterMap_cons, hgi]
        simp [outcomeMeta, ih l hrec]
    | dropped nm =>
      simp only [gentocResolve, hgi] at h
      rw [List.filterMap_cons, hgi]
      simp [outcomeMeta, ih resolved h]
    | fatal msg =>
      simp only [gentocResolve, hgi] at h
      cases h

/-- C10: after a completed index pass the rebuilt snapshot holds exactly the
records resolved in that pass (cache hits plus successful parses; the
draft/permission filter parameters do not enter `buildCache` at all); an
identifier that is no longer discovered, or whose reparse was dropped, is
absent from the new snapshot.  `hW` states the loaded snapshot keys records
by their own name (true of every snapshot this code writes) and `hN` that
`json.Unmarshal` does not override the `Name` field `loadPost` seeds. -/
theorem cache_snapshot_exact (cache : List (String × PostData))
    (fsRead : String → Option (String × GoTime × Int))
    (unm : String → PostData → Option PostData) (cfg : Config) (hostU : String)
    (dir : List FileInfo) (resolved : List PostData)
    (hok : gentocResolve cache fsRead unm cfg hostU dir = .ok resolved)
    (hW : ∀ kv ∈ cache, (Prod.snd kv).Name = kv.1)
    (hN : ∀ hdr mm mm2, unm hdr mm = some mm2 → mm2.Name = mm.Name) :
    (∀ n m, lookupCache (buildCache resolved) n = some m → m ∈ resolved ∧ m.Name = n)
    ∧ (∀ m ∈ resolved, ∃ m2, lookupCache (buildCache resolved) m.Name = some m2
        ∧ m2 ∈ resolved ∧ m2.Name = m.Name)
    ∧ (∀ n, n ∉ dir.map (fun d => d.Name) → lookupCache (buildCache resolved) n = none)
    ∧ ((dir.map (fun d => d.Name)).Nodup →
        ∀ d ∈ dir, gentocItem cache fsRead unm cfg hostU d = .dropped d.Name →
          lookupCache (buildCache resolved) d.Name = none) := by
  have hres := resolve_ok_elim cache fsRead unm cfg hostU dir resolved hok
  have hnames : ∀ m ∈ resolved, ∃ d ∈ dir,
      outcomeMeta (gentocItem cache fsRead unm cfg hostU d) = some m
        ∧ m.Name = d.Name := by
    intro m hm
    rw [hres] at hm
    obtain ⟨d, hd, hout⟩ := List.mem_filterMap.mp hm
    exact ⟨d, hd, hout, resolved_name cache fsRead unm cfg hostU d m hW hN hout⟩
  refine ⟨fun n m h => buildCache_mem resolved n m h, ?_, ?_, ?_⟩
  · intro m hm
    obtain ⟨m2, hm2⟩ := buildCache_isSome resolved m hm
    obtain ⟨hmem2, hname2⟩ := buildCache_mem resolved m.Name m2 hm2
    exact ⟨m2, hm2, hmem2, hname2⟩
  · intro n hn
    cases hx : lookupCache (buildCache resolved) n with
    | none => rfl
    | some m =>
      exfalso
      obtain ⟨hmem, hname⟩ := buildCache_mem resolved n m hx
      obtain ⟨d, hd, _, hnd2⟩ := hnames m hmem
      have : n ∈ dir.map (fun d2 => d2.Name) := by
        rw [← hname, hnd2]
        exact List.mem_map_of_mem (fun d2 => d2.Name) hd
      exact hn this
  · intro hnodup d hd hdrop
    cases hx : lookupCache (buildCache resolved) d.Name with
    | none => rfl
    | some m =>
      exfalso
      obtain ⟨hmem, hname⟩ := buildCache_mem resolved d.Name m hx
      obtain ⟨d2, hd2, hout2, hnd2⟩ := hnames m hmem
      have hdd : d2 = d := by
        have hinj := List.inj_on_of_nodup_map hnodup
        exact hinj hd2 hd (hnd2 ▸ hname)
      rw [hdd, hdrop] at hout2
      simp [outcomeMeta] at hout2

/-- C10 (witness): a pass over one fresh file "p1" with a stale snapshot
entry "gone" yields a snapshot holding exactly the parsed record, and the
undiscovered identifier "gone" has been evicted. -/
theorem cache_snapshot_exact_witness :
    gentocResolve cacheW fsPlain unmId cfg0 "" dirW = .ok [mW]
    ∧ lookupCache (buildCache [mW]) "gone" = none
    ∧ lookupCache (buildCache [mW]) "p1" = some mW := by
  have hok : gentocResolve cacheW fsPlain unmId cfg0 "" dirW = .ok [mW] := by decide
  refine ⟨hok, ?_, by decide⟩
  exact (cache_snapshot_exact cacheW fsPlain unmId cfg0 "" dirW [mW] hok
    (by decide)
    (fun hdr mm mm2 h => by
      simp only [unmId, Option.some.injEq] at h
      rw [← h])).2.2.1 "gone" (by decide)

theorem invR_init (dir : List FileInfo) : InvR (rInit dir) := by
  refine ⟨?_, ?_, ?_⟩ <;> simp [rInit, InvR, takenOf, par]

theorem invR_step {cache : List (String × PostData)} {s s2 : RState}
    (h : RStep cache s s2) (hi : InvR s) : InvR s2 := by
  obtain ⟨h1, h2, h3⟩ := hi
  cases h with
  | hit d rest p r hc =>
    exact ⟨by simpa using h1, by simpa using h2, by simp⟩
  | acquire d rest p r hc =>
    refine ⟨?_, by simpa using h2, by simp⟩
    simp [takenOf] at h1 ⊢
    omega
  | finish pend p r ph =>
    refine ⟨?_, by simpa using h2, by simpa using h3⟩
    simp [takenOf] at h1 ⊢
    omega
  | startWait p r =>
    refine ⟨?_, ?_, by simp⟩
    · simp [takenOf] at h1 ⊢
      omega
    · simp [takenOf, par]
  | take p r k hk =>
    refine ⟨?_, ?_, by simp⟩
    · simp [takenOf] at h1 ⊢
      omega
    · simp [takenOf] at h2 ⊢
      omega
  | finishWait p r =>
    refine ⟨?_, ?_, by simp⟩
    · simp [takenOf] at h1 ⊢
      omega
    · simp [takenOf]

theorem rstep_progress {cache : List (String × PostData)} {s : RState}
    (hi : InvR s) (hnd : s.phase ≠ .done) : ∃ s2, RStep cache s s2 := by
  obtain ⟨pend, p, r, ph⟩ := s
  obtain ⟨h1, h2, h3⟩ := hi
  cases ph with
  | dispatching =>
    cases pend with
    | nil => exact ⟨_, RStep.startWait p r⟩
    | cons d rest =>
      by_cases hc : cacheHit cache d = true
      · exact ⟨_, RStep.hit d rest p r hc⟩
      · rw [Bool.not_eq_true] at hc
        cases p with
        | zero =>
          cases r with
          | zero => simp [takenOf, par] at h1
          | succ r2 => exact ⟨_, RStep.finish (d :: rest) 0 r2 .dispatching⟩
        | succ p2 => exact ⟨_, RStep.acquire d rest p2 r hc⟩
  | waiting k =>
    have hp : pend = [] := h3 (by simp)
    subst hp
    by_cases hk : k < par
    · cases p with
      | zero =>
        cases r with
        | zero =>
          simp [takenOf, par] at h1 hk
          omega
        | succ r2 => exact ⟨_, RStep.finish [] 0 r2 (.waiting k)⟩
      | succ p2 => exact ⟨_, RStep.take p2 r k hk⟩
    · have hkp : k = par := by
        simp [takenOf] at h2
        omega
      subst hkp
      exact ⟨_, RStep.finishWait p r⟩
  | done => exact absurd rfl hnd

theorem rstep_measure {cache : List (String × PostData)} {s s2 : RState}
    (h : RStep cache s s2) : rMeasure s2 < rMeasure s := by
  cases h with
  | hit d rest p r hc =>
    simp only [rMeasure, phaseTerm, List.length_cons]
    omega
  | acquire d rest p r hc =>
    simp only [rMeasure, phaseTerm, List.length_cons]
    omega
  | finish pend p r ph =>
    simp only [rMeasure]
    omega
  | startWait p r =>
    simp only [rMeasure, phaseTerm, par]
    omega
  | take p r k hk =>
    simp only [rMeasure, phaseTerm, par] at hk ⊢
    omega
  | finishWait p r =>
    simp only [rMeasure, phaseTerm, par]
    omega

theorem reaches_done_aux (cache : List (String × PostData)) :
    ∀ (n : Nat) (s : RState), rMeasure s ≤ n → InvR s →
      ∃ t, Relation.ReflTransGen (RStep cache) s t ∧ t.phase = .done := by
  intro n
  induction n with
  | zero =>
    intro s hm hi
    obtain ⟨pend, p, r, ph⟩ := s
    cases ph with
    | dispatching => simp [rMeasure, phaseTerm, par] at hm
    | waiting k =>
      exfalso
      obtain ⟨h1, h2, h3⟩ := hi
      clear h1 h3
      simp only [takenOf, par] at h2
      simp only [rMeasure, phaseTerm, par, Nat.le_zero] at hm
      omega
    | done => exact ⟨_, Relation.ReflTransGen.refl, rfl⟩
  | succ n ih =>
    intro s hm hi
    by_cases hd : s.phase = .done
    · exact ⟨s, Relation.ReflTransGen.refl, hd⟩
    · obtain ⟨s2, hs2⟩ := rstep_progress hi hd
      have hi2 := invR_step hs2 hi
      have hlt := rstep_measure hs2
      obtain ⟨t, ht, htd⟩ := ih s2 (by omega) hi2
      exact ⟨t, Relation.ReflTransGen.head hs2 ht, htd⟩

theorem invR_reachable (cache : List (String × PostData)) (dir : List FileInfo) :
    ∀ s, Relation.ReflTransGen (RStep cache) (rInit dir) s → InvR s := by
  intro s h
  induction h with
  | refl => exact invR_init dir
  | tail h1 h2 ih => exact invR_step h2 ih

/-- C2: for every listing and loaded cache, the bounded refresher (a) keeps
the permit-conservation invariant `free + running + taken = 20` along every
reachable state — each acquired permit is released exactly once and cache
hits never touch the pool; (b) is never stuck before completion; (c) strictly
decreases a measure at every step, so every run is finite; (d) can always
drain to the completed phase; and (e) on completion — entered only after the
wait loop has observed exactly `par = 20` permit receipts — every dispatched
parse has finished (`running = 0`), every item was handled (`pending = []`)
and the pool is exactly drained. -/
theorem refresher_completion (cache : List (String × PostData)) (dir : List FileInfo) :
    (∀ s, Relation.ReflTransGen (RStep cache) (rInit dir) s → InvR s)
    ∧ (∀ s, Relation.ReflTransGen (RStep cache) (rInit dir) s → s.phase ≠ .done →
        ∃ s2, RStep cache s s2)
    ∧ (∀ s s2, RStep cache s s2 → rMeasure s2 < rMeasure s)
    ∧ (∀ s, Relation.ReflTransGen (RStep cache) (rInit dir) s →
        ∃ t, Relation.ReflTransGen (RStep cache) s t ∧ t.phase = .done)
    ∧ (∀ s, Relation.ReflTransGen (RStep cache) (rInit dir) s → s.phase = .done →
        s.running = 0 ∧ s.permits = 0 ∧ s.pending = [])
    ∧ (∀ (d : FileInfo) (rest : List FileInfo) (p r : Nat), cacheHit cache d = true →
        RStep cache ⟨d :: rest, p, r, .dispatching⟩ ⟨rest, p, r, .dispatching⟩) := by
  refine ⟨invR_reachable cache dir, ?_, fun s s2 h => rstep_measure h, ?_, ?_,
    fun d rest p r hc => RStep.hit d rest p r hc⟩
  · intro s hs hnd
    exact rstep_progress (invR_reachable cache dir s hs) hnd
  · intro s hs
    exact reaches_done_aux cache (rMeasure s) s (Nat.le_refl _)
      (invR_reachable cache dir s hs)
  · intro s hs hdone
    have hi := invR_reachable cache dir s hs
    obtain ⟨h1, h2, h3⟩ := hi
    rw [hdone] at h1
    simp [takenOf] at h1
    refine ⟨by omega, by omega, h3 (by rw [hdone]; simp)⟩

/-- C2 (witness): the theorem instantiated at a concrete pass (empty cache,
one stale item), giving the invariant at the initial state and the
reachability of completion from it. -/
theorem refresher_completion_witness :
    InvR (rInit dirBad)
    ∧ (∃ t, Relation.ReflTransGen (RStep ([] : List (String × PostData))) (rInit dirBad) t
        ∧ t.phase = .done) := by
  refine ⟨(refresher_completion [] dirBad).1 (rInit dirBad) Relation.ReflTransGen.refl, ?_⟩
  exact (refresher_completion [] dirBad).2.2.2.1 (rInit dirBad) Relation.ReflTransGen.refl

end Blog
